import Mathlib

/-!
Verification of the player-search and stat-formatting helpers of the
cricpulse-dashboard repository (`src/frontend/src/App.jsx`), namely
`formatCell`, `fmt`, `fmtPct`, `normalizeText`, `buildSearchKey` and the
candidate filtering performed by `SearchSelect`'s `opts` memo.

Modelling conventions for the JavaScript source:
* JS values reaching these helpers are modelled by `JSValue`
  (strings, numbers, `null`, `undefined`).
* JS numbers are modelled as exact rationals (`ℚ`); on every input exercised
  here the IEEE double and the exact decimal value agree.  `Math.round` is
  `round` (floor of `x + 1/2`), `Number.isInteger v` is `v.den = 1`, and
  `toFixed` / number-to-string conversion are modelled digit by digit below.
* `String.prototype.toLowerCase` is modelled character-wise by
  `Char.toLower` (the source data is basic-latin).
* The regular-expression class `\s` and `String.prototype.trim` use the
  ECMAScript white-space set, modelled by `jsIsWhitespace`.
-/

namespace CricPulse

/-- A JavaScript value as it can reach the helpers under verification:
a string, a number, `null` or `undefined`. -/
inductive JSValue where
  | jstr (s : String)
  | jnum (q : ℚ)
  | jnull
  | jundef
deriving DecidableEq

/-- Code points of the ECMAScript white-space and line-terminator set
(the class `\s`, also used by `trim`). -/
def wsCodes : List Nat :=
  [9, 10, 11, 12, 13, 32, 0xa0, 0x1680,
   0x2000, 0x2001, 0x2002, 0x2003, 0x2004, 0x2005, 0x2006, 0x2007,
   0x2008, 0x2009, 0x200a, 0x2028, 0x2029, 0x202f, 0x205f, 0x3000, 0xfeff]

/-- ECMAScript white-space test (`\s`). -/
def jsIsWhitespace (c : Char) : Bool :=
  decide (c.toNat ∈ wsCodes)

/-- Character-wise model of `String.prototype.toLowerCase`. -/
def jsLower (l : List Char) : List Char :=
  l.map Char.toLower

/-- Model of `s.replace(/\s+/g, " ")`: every maximal run of white-space characters
becomes a single space.  The flag records whether we are inside a run. -/
def collapseWsAux : Bool → List Char → List Char
  | _, [] => []
  | inRun, c :: t =>
    if jsIsWhitespace c then
      if inRun then collapseWsAux true t else ' ' :: collapseWsAux true t
    else c :: collapseWsAux false t

/-- Model of `String.prototype.trim`: drop leading and trailing white-space. -/
def jsTrimList (l : List Char) : List Char :=
  ((l.dropWhile fun c => jsIsWhitespace c).reverse.dropWhile
    fun c => jsIsWhitespace c).reverse

/-- One digit of the fractional decimal expansion (`0 ≤ x < 1` intended);
fuel-bounded like the 17 significant digits a JS double can print. -/
def decDigitsAux : Nat → ℚ → List Char
  | 0, _ => []
  | fuel + 1, x =>
    if x = 0 then []
    else Char.ofNat (48 + (⌊x * 10⌋).toNat) :: decDigitsAux fuel (x * 10 - (⌊x * 10⌋ : ℚ))

/-- Model of `String(v)` for a non-negative number. -/
def jsNumToStringAbs (q : ℚ) : String :=
  if q.den = 1 then toString q.num
  else toString ⌊q⌋ ++ "." ++ String.mk (decDigitsAux 17 (q - (⌊q⌋ : ℚ)))

/-- Model of `String(v)` for a number: sign first, then the decimal expansion. -/
def jsNumToString (q : ℚ) : String :=
  if q < 0 then "-" ++ jsNumToStringAbs (-q) else jsNumToStringAbs q

/-- Model of `String(v || "")`: falsy values (`null`, `undefined`, `0`, `""`)
become the empty string, everything else its string conversion. -/
def jsTruthyString : JSValue → String
  | .jstr s => s
  | .jnum q => if q = 0 then "" else jsNumToString q
  | .jnull => ""
  | .jundef => ""

/-- The function `normalizeText` from `App.jsx`:
`String(s || "").toLowerCase().replace(/\s+/g, " ").trim()`. -/
def normalizeText (v : JSValue) : String :=
  String.mk (jsTrimList (collapseWsAux false (jsLower (jsTruthyString v).toList)))

/-- Model of `hay.startsWith(needle)` on character lists. -/
def listHeadMatch : List Char → List Char → Bool
  | [], _ => true
  | _ :: _, [] => false
  | a :: as, b :: bs => a = b && listHeadMatch as bs

/-- Substring test on character lists (needle occurs somewhere in hay). -/
def hasSub : List Char → List Char → Bool
  | [], needle => needle.isEmpty
  | c :: t, needle => listHeadMatch needle (c :: t) || hasSub t needle

/-- Model of `String.prototype.includes`. -/
def strIncludes (hay needle : String) : Bool :=
  hasSub hay.toList needle.toList

/-- Model of `s.split(sep)` for a one-character separator: every occurrence of the
separator ends a piece, so consecutive separators yield empty pieces. -/
def splitChar (sep : Char) : List Char → List (List Char)
  | [] => [[]]
  | c :: t =>
    match splitChar sep t with
    | [] => [[]]
    | h :: r => if c = sep then [] :: h :: r else (c :: h) :: r

/-- Model of `arr.join(sep)` on character lists. -/
def joinWith (sep : List Char) : List (List Char) → List Char
  | [] => []
  | [x] => x
  | x :: y :: t => x ++ sep ++ joinWith sep (y :: t)

/-- The function `buildSearchKey` from `App.jsx`: normalize, split on single spaces,
drop empty pieces, and join the five representations with `" | "`. -/
def buildSearchKey (fullName : JSValue) : String :=
  let n := normalizeText fullName
  if n = "" then ""
  else
    let parts := (splitChar ' ' n.toList).filter (fun p => p ≠ [])
    let first := parts.headD []
    let last := if parts.length > 1 then parts.getLastD [] else first
    let firstLast := joinWith [' '] parts
    let lastFirst := jsTrimList (joinWith [' '] (last :: parts.dropLast))
    let compact := joinWith [] parts
    String.mk (joinWith (" | ".toList) [firstLast, lastFirst, last, first, compact])

/-- The `opts` memo of `SearchSelect` in `App.jsx`, as the filtering
contract `search(candidates, query)`: pair every candidate with its key,
keep the keys containing the normalized query (no filtering when that is
empty), truncate to 150, and hand the names back. -/
def search (options : List String) (q : String) : List String :=
  let list := options.map fun name => (name, buildSearchKey (JSValue.jstr name))
  let qq := normalizeText (JSValue.jstr q)
  if qq = "" then (list.take 150).map Prod.fst
  else ((list.filter fun o => strIncludes o.2 qq).take 150).map Prod.fst

/-- Model of `v.toFixed(d)` for a non-negative number: round `v * 10^d` half-up to
an integer and print it with exactly `d` fractional digits. -/
def jsToFixedAbs (d : Nat) (q : ℚ) : String :=
  let n := (⌊q * (10 : ℚ) ^ d + 1 / 2⌋).toNat
  let ip := n / 10 ^ d
  let fp := n % 10 ^ d
  if d = 0 then toString ip
  else
    let fpStr := toString fp
    toString ip ++ "." ++ (String.mk (List.replicate (d - fpStr.length) '0') ++ fpStr)

/-- Model of `v.toFixed(d)`: the sign is printed first and the absolute value is
rounded, as in the ECMAScript specification of `Number.prototype.toFixed`. -/
def jsToFixed (d : Nat) (q : ℚ) : String :=
  if q < 0 then "-" ++ jsToFixedAbs d (-q) else jsToFixedAbs d q

/-- The final branch of `formatCell` for numbers whose key matches no
naming rule: integers print plainly, everything else is rounded to the
4-decimal grid (`Math.round(v * 10000) / 10000`) and printed. -/
def ruleSix (q : ℚ) : String :=
  if q.den = 1 then jsNumToString q
  else jsNumToString ((round (q * 10000) : ℚ) / 10000)

/-- The function `formatCell` from `App.jsx`: absent values print as `""`, numbers by
the first matching key-name rule, anything else via `String(v)`. -/
def formatCell (v : JSValue) (key : String) : String :=
  match v with
  | .jnull => ""
  | .jundef => ""
  | .jnum q =>
    let k := String.mk (jsLower key.toList)
    if strIncludes k "econ" then jsToFixed 2 q
    else if k = "sr" ∨ strIncludes k "sr_" ∨ strIncludes k "_sr" ∨ strIncludes k "strike" then
      jsToFixed 1 q
    else if strIncludes k "dismiss" then jsToFixed 1 q
    else if strIncludes k "wicket_pct" ∨ strIncludes k "wicket_pct_per_start" then jsToFixed 1 q
    else if strIncludes k "share" then jsToFixed 1 q
    else ruleSix q
  | .jstr s => s

/-- The function `fmt` from `App.jsx`: em dash for absent values, else `formatCell`. -/
def fmt (value : JSValue) (key : String) : String :=
  match value with
  | .jnull => "—"
  | .jundef => "—"
  | v => formatCell v key

/-- The function `fmtPct` from `App.jsx`: em dash for absent values, else `formatCell`
with a literal percent sign appended. -/
def fmtPct (value : JSValue) (key : String) : String :=
  match value with
  | .jnull => "—"
  | .jundef => "—"
  | v => formatCell v key ++ "%"

/-- Run collapsing written the way the specification phrases it: a
white-space character followed by another white-space character is dropped,
the last character of a run becomes a single space.  Used only to compare
`collapseWsAux` against the specification's wording. -/
def specCollapse : List Char → List Char
  | [] => []
  | [c] => if jsIsWhitespace c then [' '] else [c]
  | a :: b :: t =>
    if jsIsWhitespace a ∧ jsIsWhitespace b then specCollapse (b :: t)
    else (if jsIsWhitespace a then ' ' else a) :: specCollapse (b :: t)

/-- The specification's description of `normalizeText` on strings:
lower-case, collapse every white-space run to one space, trim. -/
def specNormalize (s : String) : String :=
  String.mk (jsTrimList (specCollapse (jsLower s.toList)))

/-- The specification's description of `buildSearchKey`: normalize (empty
gives the empty key), split into tokens, and join firstLast, lastFirst
(last token followed by all tokens except the last), the last token, the
first token and the compact form with `" | "`. -/
def specSearchKey (fullName : JSValue) : String :=
  let n := normalizeText fullName
  if n = "" then ""
  else
    let toks := (splitChar ' ' n.toList).filter (fun p => p ≠ [])
    let first := toks.headD []
    let last := toks.getLastD []
    String.mk (joinWith (" | ".toList)
      [joinWith [' '] toks, joinWith [' '] (last :: toks.dropLast), last, first,
        joinWith [] toks])

/-- Adjacent characters of a collapsed string are never both white-space. -/
def wsRel (a b : Char) : Prop :=
  ¬(jsIsWhitespace a = true ∧ jsIsWhitespace b = true)

theorem char_toNat_ofNat_of_lt {n : Nat} (h : n < 0xd800) :
    (Char.ofNat n).toNat = n := by
  have hv : n.isValidChar := Or.inl h
  unfold Char.ofNat
  rw [dif_pos hv]
  simp [Char.ofNatAux, Char.toNat, UInt32.toNat, UInt32.ofNat', BitVec.ofNatLt]

theorem toLower_idem (c : Char) : Char.toLower (Char.toLower c) = Char.toLower c := by
  unfold Char.toLower
  by_cases h : c.toNat ≥ 65 ∧ c.toNat ≤ 90
  · rw [if_pos h]
    have h1 : (Char.ofNat (c.toNat + 32)).toNat = c.toNat + 32 :=
      char_toNat_ofNat_of_lt (by omega)
    rw [h1, if_neg (by omega)]
  · rw [if_neg h, if_neg h]

theorem ws_toLower (c : Char) : jsIsWhitespace (Char.toLower c) = jsIsWhitespace c := by
  unfold Char.toLower
  by_cases h : c.toNat ≥ 65 ∧ c.toNat ≤ 90
  · rw [if_pos h]
    have h1 : (Char.ofNat (c.toNat + 32)).toNat = c.toNat + 32 :=
      char_toNat_ofNat_of_lt (by omega)
    have h2 : (c.toNat + 32) ∉ wsCodes := by simp only [wsCodes, List.mem_cons, List.not_mem_nil, or_false]; omega
    have h3 : c.toNat ∉ wsCodes := by simp only [wsCodes, List.mem_cons, List.not_mem_nil, or_false]; omega
    simp [jsIsWhitespace, h1, h2, h3]
  · rw [if_neg h]

theorem collapse_true_head {l : List Char} {c : Char}
    (h : (collapseWsAux true l).head? = some c) : jsIsWhitespace c = false := by
  induction l with
  | nil => simp [collapseWsAux] at h
  | cons a t ih =>
    by_cases ha : jsIsWhitespace a = true
    · rw [show collapseWsAux true (a :: t) = collapseWsAux true t by
        simp [collapseWsAux, ha]] at h
      exact ih h
    · rw [show collapseWsAux true (a :: t) = a :: collapseWsAux false t by
        simp [collapseWsAux, ha]] at h
      simp only [List.head?_cons, Option.some.injEq] at h
      subst h
      simpa using ha

theorem collapse_chain' (b : Bool) (l : List Char) :
    List.Chain' wsRel (collapseWsAux b l) := by
  induction l generalizing b with
  | nil => simp [collapseWsAux]
  | cons a t ih =>
    by_cases ha : jsIsWhitespace a = true
    · cases b with
      | true =>
        rw [show collapseWsAux true (a :: t) = collapseWsAux true t by
          simp [collapseWsAux, ha]]
        exact ih true
      | false =>
        rw [show collapseWsAux false (a :: t) = ' ' :: collapseWsAux true t by
          simp [collapseWsAux, ha]]
        rw [List.chain'_cons']
        refine ⟨fun y hy => ?_, ih true⟩
        have := collapse_true_head hy
        simp [wsRel, this]
    · rw [show collapseWsAux b (a :: t) = a :: collapseWsAux false t by
        simp [collapseWsAux, ha]]
      rw [List.chain'_cons']
      refine ⟨fun y hy => ?_, ih false⟩
      simp [wsRel, ha]

theorem mem_collapse {b : Bool} {l : List Char} {c : Char}
    (h : c ∈ collapseWsAux b l) : c = ' ' ∨ (c ∈ l ∧ jsIsWhitespace c = false) := by
  induction l generalizing b with
  | nil => simp [collapseWsAux] at h
  | cons a t ih =>
    by_cases ha : jsIsWhitespace a = true
    · cases b with
      | true =>
        rw [show collapseWsAux true (a :: t) = collapseWsAux true t by
          simp [collapseWsAux, ha]] at h
        rcases ih h with h' | ⟨h1, h2⟩
        · exact Or.inl h'
        · exact Or.inr ⟨List.mem_cons_of_mem a h1, h2⟩
      | false =>
        rw [show collapseWsAux false (a :: t) = ' ' :: collapseWsAux true t by
          simp [collapseWsAux, ha]] at h
        rcases List.mem_cons.mp h with h' | h'
        · exact Or.inl h'
        · rcases ih h' with h'' | ⟨h1, h2⟩
          · exact Or.inl h''
          · exact Or.inr ⟨List.mem_cons_of_mem a h1, h2⟩
    · rw [show collapseWsAux b (a :: t) = a :: collapseWsAux false t by
        simp [collapseWsAux, ha]] at h
      rcases List.mem_cons.mp h with h' | h'
      · subst h'
        exact Or.inr ⟨List.mem_cons_self _ _, by simpa using ha⟩
      · rcases ih h' with h'' | ⟨h1, h2⟩
        · exact Or.inl h''
        · exact Or.inr ⟨List.mem_cons_of_mem a h1, h2⟩

theorem collapse_self {l : List Char}
    (h1 : ∀ c ∈ l, jsIsWhitespace c = true → c = ' ')
    (h2 : List.Chain' wsRel l) :
    collapseWsAux false l = l ∧
      ((∀ c ∈ l.head?, jsIsWhitespace c = false) → collapseWsAux true l = l) := by
  induction l with
  | nil => simp [collapseWsAux]
  | cons a t ih =>
    have ih' := ih (fun c hc => h1 c (List.mem_cons_of_mem a hc)) h2.tail
    by_cases ha : jsIsWhitespace a = true
    · have haSp : a = ' ' := h1 a (List.mem_cons_self _ _) ha
      have hHead : ∀ c ∈ t.head?, jsIsWhitespace c = false := by
        intro c hc
        have := (List.chain'_cons'.mp h2).1 c hc
        simp only [wsRel, not_and] at this
        exact Bool.not_eq_true _ ▸ by
          by_contra hcc
          exact this ha (by simpa using hcc)
      have ht : collapseWsAux true t = t := ih'.2 hHead
      constructor
      · rw [show collapseWsAux false (a :: t) = ' ' :: collapseWsAux true t by
          simp [collapseWsAux, ha]]
        rw [ht, haSp]
      · intro hh
        exact absurd (hh a (by simp)) (by simp [ha])
    · constructor
      · rw [show collapseWsAux false (a :: t) = a :: collapseWsAux false t by
          simp [collapseWsAux, ha]]
        rw [ih'.1]
      · intro _
        rw [show collapseWsAux true (a :: t) = a :: collapseWsAux false t by
          simp [collapseWsAux, ha]]
        rw [ih'.1]

theorem head?_dropWhile_eq_some {α : Type} {p : α → Bool} {l : List α} {c : α}
    (h : (l.dropWhile p).head? = some c) : p c = false := by
  have := List.head?_dropWhile_not p l
  rw [h] at this
  exact this

theorem getLast?_dropWhile {α : Type} {p : α → Bool} {l : List α}
    (h : l.dropWhile p ≠ []) : (l.dropWhile p).getLast? = l.getLast? := by
  obtain ⟨t, ht⟩ := List.dropWhile_suffix p (l := l)
  conv_rhs => rw [← ht]
  rw [List.getLast?_append_of_ne_nil t h]

theorem mem_jsTrimList {l : List Char} {c : Char} (h : c ∈ jsTrimList l) : c ∈ l := by
  unfold jsTrimList at h
  rw [List.mem_reverse] at h
  have h1 := List.dropWhile_subset (fun c => jsIsWhitespace c) h
  rw [List.mem_reverse] at h1
  exact List.dropWhile_subset (fun c => jsIsWhitespace c) h1

theorem chain'_dropWhile {α : Type} {R : α → α → Prop} {p : α → Bool} {l : List α}
    (h : List.Chain' R l) : List.Chain' R (l.dropWhile p) := by
  induction l with
  | nil => simp
  | cons a t ih =>
    by_cases hp : p a = true
    · rw [List.dropWhile_cons_of_pos hp]
      exact ih h.tail
    · rw [List.dropWhile_cons_of_neg (by simpa using hp)]
      exact h

theorem chain'_wsRel_reverse {l : List Char} (h : List.Chain' wsRel l) :
    List.Chain' wsRel l.reverse := by
  rw [List.chain'_reverse]
  exact h.imp fun a b hab => by
    simp only [flip, wsRel, not_and] at *
    intro hb ha
    exact hab ha hb

theorem chain'_jsTrimList {l : List Char} (h : List.Chain' wsRel l) :
    List.Chain' wsRel (jsTrimList l) := by
  unfold jsTrimList
  exact chain'_wsRel_reverse (chain'_dropWhile (chain'_wsRel_reverse (chain'_dropWhile h)))

theorem jsTrimList_eq_self {l : List Char}
    (hh : ∀ c ∈ l.head?, jsIsWhitespace c = false)
    (hl : ∀ c ∈ l.getLast?, jsIsWhitespace c = false) :
    jsTrimList l = l := by
  have step1 : l.dropWhile (fun c => jsIsWhitespace c) = l := by
    cases l with
    | nil => rfl
    | cons a t =>
      have := hh a (by simp)
      rw [List.dropWhile_cons_of_neg (by simpa using this)]
  have step2 : l.reverse.dropWhile (fun c => jsIsWhitespace c) = l.reverse := by
    cases hr : l.reverse with
    | nil => rfl
    | cons a t =>
      have ha : l.getLast? = some a := by
        rw [← List.head?_reverse, hr]
        rfl
      have := hl a ha
      rw [List.dropWhile_cons_of_neg (by simpa using this)]
  unfold jsTrimList
  rw [step1, step2, List.reverse_reverse]

theorem head?_jsTrimList {l : List Char} {c : Char}
    (h : (jsTrimList l).head? = some c) : jsIsWhitespace c = false := by
  unfold jsTrimList at h
  rw [List.head?_reverse] at h
  have hne : ((l.dropWhile fun c => jsIsWhitespace c).reverse.dropWhile
      fun c => jsIsWhitespace c) ≠ [] := by
    intro hcon
    rw [hcon] at h
    simp at h
  rw [getLast?_dropWhile hne, List.getLast?_reverse] at h
  exact head?_dropWhile_eq_some h

theorem getLast?_jsTrimList {l : List Char} {c : Char}
    (h : (jsTrimList l).getLast? = some c) : jsIsWhitespace c = false := by
  unfold jsTrimList at h
  rw [List.getLast?_reverse] at h
  exact head?_dropWhile_eq_some h

theorem jsTrimList_idem (l : List Char) :
    jsTrimList (jsTrimList l) = jsTrimList l :=
  jsTrimList_eq_self (fun _ hc => head?_jsTrimList hc) (fun _ hc => getLast?_jsTrimList hc)

theorem normalizeText_toList (v : JSValue) :
    (normalizeText v).toList =
      jsTrimList (collapseWsAux false (jsLower (jsTruthyString v).toList)) := rfl

theorem normalizeText_ws_space {v : JSValue} {c : Char}
    (h : c ∈ (normalizeText v).toList) (hws : jsIsWhitespace c = true) : c = ' ' := by
  rw [normalizeText_toList] at h
  rcases mem_collapse (mem_jsTrimList h) with h' | ⟨_, h2⟩
  · exact h'
  · rw [hws] at h2
    exact absurd h2 (by simp)

theorem normalizeText_lower_fix {v : JSValue} {c : Char}
    (h : c ∈ (normalizeText v).toList) : Char.toLower c = c := by
  rw [normalizeText_toList] at h
  rcases mem_collapse (mem_jsTrimList h) with h' | ⟨h1, _⟩
  · subst h'
    decide
  · rcases List.mem_map.mp h1 with ⟨d, _, hd⟩
    rw [← hd]
    exact toLower_idem d

theorem normalizeText_chain' (v : JSValue) :
    List.Chain' wsRel (normalizeText v).toList := by
  rw [normalizeText_toList]
  exact chain'_jsTrimList (collapse_chain' false _)

theorem normalizeText_idem (v : JSValue) :
    normalizeText (.jstr (normalizeText v)) = normalizeText v := by
  conv_lhs => rw [normalizeText]
  have h0 : jsTruthyString (.jstr (normalizeText v)) = normalizeText v := rfl
  rw [h0]
  have h1 : jsLower (normalizeText v).toList = (normalizeText v).toList := by
    unfold jsLower
    rw [List.map_congr_left fun c hc => normalizeText_lower_fix hc, List.map_id']
  rw [h1]
  have h2 : collapseWsAux false (normalizeText v).toList = (normalizeText v).toList :=
    (collapse_self (fun c hc hws => normalizeText_ws_space hc hws)
      (normalizeText_chain' v)).1
  rw [h2, normalizeText_toList, jsTrimList_idem]
  rfl

theorem specCollapse_cons_not_ws {b : Char} {t : List Char}
    (hb : jsIsWhitespace b = false) : specCollapse (b :: t) = b :: specCollapse t := by
  cases t with
  | nil => simp [specCollapse, hb]
  | cons d t' => simp [specCollapse, hb]

theorem collapse_spec (l : List Char) :
    collapseWsAux false l = specCollapse l ∧
      ∀ c, jsIsWhitespace c = true →
        ' ' :: collapseWsAux true l = specCollapse (c :: l) := by
  induction l with
  | nil =>
    refine ⟨rfl, fun c hc => ?_⟩
    simp [collapseWsAux, specCollapse, hc]
  | cons b t ih =>
    constructor
    · by_cases hb : jsIsWhitespace b = true
      · rw [show collapseWsAux false (b :: t) = ' ' :: collapseWsAux true t by
          simp [collapseWsAux, hb]]
        exact ih.2 b hb
      · rw [show collapseWsAux false (b :: t) = b :: collapseWsAux false t by
          simp [collapseWsAux, hb]]
        rw [ih.1, specCollapse_cons_not_ws (by simpa using hb)]
    · intro c hc
      by_cases hb : jsIsWhitespace b = true
      · rw [show collapseWsAux true (b :: t) = collapseWsAux true t by
          simp [collapseWsAux, hb]]
        rw [show specCollapse (c :: b :: t) = specCollapse (b :: t) by
          simp [specCollapse, hc, hb]]
        exact ih.2 b hb
      · rw [show collapseWsAux true (b :: t) = b :: collapseWsAux false t by
          simp [collapseWsAux, hb]]
        rw [ih.1]
        rw [show specCollapse (c :: b :: t) = ' ' :: specCollapse (b :: t) by
          simp [specCollapse, hc, hb]]
        rw [specCollapse_cons_not_ws (by simpa using hb)]

/-- C5 (amended): for every string input, `normalizeText` lower-cases,
collapses every white-space run to a single space and trims, exactly as the
specification words it (`specNormalize`); absent input (`null`/`undefined`)
normalizes to the empty string; a numeric input is coerced by
`String(v || "")` — empty for the falsy `0`, the generic string conversion
otherwise — and then normalized, so a non-string input does **not** always
normalize to the empty string. -/
theorem normalizeText_spec :
    (∀ s : String, normalizeText (.jstr s) = specNormalize s) ∧
      normalizeText .jnull = "" ∧ normalizeText .jundef = "" ∧
      (∀ q : ℚ, normalizeText (.jnum q) = specNormalize (jsTruthyString (.jnum q))) := by
  refine ⟨fun s => ?_, rfl, rfl, fun q => ?_⟩
  · show String.mk (jsTrimList (collapseWsAux false (jsLower s.toList))) = _
    rw [specNormalize, (collapse_spec (jsLower s.toList)).1]
  · show String.mk (jsTrimList (collapseWsAux false
      (jsLower (jsTruthyString (.jnum q)).toList))) = _
    rw [specNormalize, (collapse_spec (jsLower (jsTruthyString (.jnum q)).toList)).1]

/-- C5, counterexample to the claim as stated: the number `5` is a
non-string input, yet `normalizeText` returns `"5"`, not the empty
string (JavaScript's `String(5 || "")` is `"5"`). -/
theorem normalizeText_nonstring_counterexample :
    normalizeText (JSValue.jnum 5) = "5" ∧ ("5" : String) ≠ "" := by
  constructor
  · decide
  · decide

/-- C8: `buildSearchKey` is invariant under pre-normalization of its
input, because `normalizeText` is idempotent. -/
theorem buildSearchKey_normalize_invariant (v : JSValue) :
    buildSearchKey v = buildSearchKey (.jstr (normalizeText v)) := by
  unfold buildSearchKey
  rw [normalizeText_idem]

theorem splitChar_ne_nil (sep : Char) (l : List Char) : splitChar sep l ≠ [] := by
  cases l with
  | nil => simp [splitChar]
  | cons a t =>
    rw [splitChar]
    cases hs : splitChar sep t with
    | nil => simp
    | cons h r =>
      by_cases ha : a = sep
      · simp [ha]
      · simp [ha]

theorem mem_splitChar {sep : Char} :
    ∀ {l : List Char}, ∀ p ∈ splitChar sep l, ∀ c ∈ p, c ∈ l ∧ c ≠ sep := by
  intro l
  induction l with
  | nil =>
    intro p hp c hc
    simp [splitChar] at hp
    subst hp
    simp at hc
  | cons a t ih =>
    intro p hp c hc
    rw [splitChar] at hp
    cases hs : splitChar sep t with
    | nil => exact absurd hs (splitChar_ne_nil sep t)
    | cons h r =>
      rw [hs] at hp
      dsimp only at hp
      by_cases ha : a = sep
      · rw [if_pos ha] at hp
        rcases List.mem_cons.mp hp with h1 | h1
        · subst h1
          simp at hc
        · have hmem : p ∈ splitChar sep t := hs ▸ h1
          have := ih p hmem c hc
          exact ⟨List.mem_cons_of_mem a this.1, this.2⟩
      · rw [if_neg ha] at hp
        rcases List.mem_cons.mp hp with h1 | h1
        · subst h1
          rcases List.mem_cons.mp hc with h2 | h2
          · subst h2
            exact ⟨List.mem_cons_self _ _, ha⟩
          · have hh : h ∈ splitChar sep t := hs ▸ List.mem_cons_self h r
            have := ih h hh c h2
            exact ⟨List.mem_cons_of_mem a this.1, this.2⟩
        · have hmem : p ∈ splitChar sep t := hs ▸ List.mem_cons_of_mem h h1
          have := ih p hmem c hc
          exact ⟨List.mem_cons_of_mem a this.1, this.2⟩

theorem splitChar_head {sep a : Char} {t : List Char} (ha : a ≠ sep) :
    ∃ h r, splitChar sep (a :: t) = (a :: h) :: r := by
  rw [splitChar]
  cases hs : splitChar sep t with
  | nil => exact absurd hs (splitChar_ne_nil sep t)
  | cons h r =>
    dsimp only
    rw [if_neg ha]
    exact ⟨h, r, rfl⟩

theorem joinWith_ne_nil {sep x : List Char} (xs : List (List Char)) (hx : x ≠ []) :
    joinWith sep (x :: xs) ≠ [] := by
  cases xs with
  | nil => simpa [joinWith] using hx
  | cons y t => simp [joinWith, List.append_eq_nil, hx]

theorem joinWith_head {sep x : List Char} (xs : List (List Char)) (hx : x ≠ []) :
    (joinWith sep (x :: xs)).head? = x.head? := by
  cases xs with
  | nil => simp [joinWith]
  | cons y t =>
    cases x with
    | nil => exact absurd rfl hx
    | cons a x' => simp [joinWith]

theorem joinWith_getLast {sep : List Char} :
    ∀ (xs : List (List Char)) (x : List Char), (∀ p ∈ x :: xs, p ≠ []) →
      (joinWith sep (x :: xs)).getLast? = (xs.getLastD x).getLast? := by
  intro xs
  induction xs with
  | nil =>
    intro x _
    simp [joinWith]
  | cons y t ih =>
    intro x h
    have hy : joinWith sep (y :: t) ≠ [] := joinWith_ne_nil t (h y (by simp))
    have step : joinWith sep (x :: y :: t) = (x ++ sep) ++ joinWith sep (y :: t) := by
      rw [joinWith, List.append_assoc]
    rw [step, List.getLast?_append_of_ne_nil _ hy,
      ih y (fun p hp => h p (List.mem_cons_of_mem x hp)), List.getLastD_cons]

theorem getLastD_mem {α : Type} {l : List α} (d : α) (h : l ≠ []) : l.getLastD d ∈ l := by
  rw [List.getLastD_eq_getLast?, List.getLast?_eq_getLast_of_ne_nil h]
  exact List.getLast_mem h

theorem normalizeText_head_not_ws {v : JSValue} {c : Char}
    (h : (normalizeText v).toList.head? = some c) : jsIsWhitespace c = false := by
  rw [normalizeText_toList] at h
  exact head?_jsTrimList h

theorem keyParts_ne_nil (v : JSValue) (hn : normalizeText v ≠ "") :
    (splitChar ' ' (normalizeText v).toList).filter (fun p => p ≠ []) ≠ [] := by
  cases hnl : (normalizeText v).toList with
  | nil =>
    exfalso
    apply hn
    apply String.ext
    exact hnl
  | cons c rest =>
    have hc : jsIsWhitespace c = false := normalizeText_head_not_ws (by rw [hnl]; rfl)
    have hcsp : c ≠ ' ' := by
      intro hcon
      rw [hcon] at hc
      exact absurd hc (by decide)
    obtain ⟨h, r, hsplit⟩ := splitChar_head (t := rest) hcsp
    rw [hsplit]
    simp

theorem keyParts_mem {v : JSValue} {p : List Char}
    (hp : p ∈ (splitChar ' ' (normalizeText v).toList).filter (fun p => p ≠ [])) :
    p ≠ [] ∧ ∀ c ∈ p, jsIsWhitespace c = false := by
  rw [List.mem_filter] at hp
  obtain ⟨hp1, hp2⟩ := hp
  refine ⟨by simpa using hp2, fun c hc => ?_⟩
  have hmem := mem_splitChar p hp1 c hc
  by_contra hcon
  have hws : jsIsWhitespace c = true := by simpa using hcon
  exact hmem.2 (normalizeText_ws_space hmem.1 hws)

theorem buildSearchKey_eq_spec (v : JSValue) : buildSearchKey v = specSearchKey v := by
  by_cases hn : normalizeText v = ""
  · simp [buildSearchKey, specSearchKey, hn]
  · rw [buildSearchKey, specSearchKey]
    simp only [if_neg hn]
    have hparts := keyParts_ne_nil v hn
    set parts := (splitChar ' ' (normalizeText v).toList).filter (fun p => p ≠ []) with hpartsDef
    have hlast : (if parts.length > 1 then parts.getLastD [] else parts.headD [])
        = parts.getLastD [] := by
      by_cases hlen : parts.length > 1
      · rw [if_pos hlen]
      · rw [if_neg hlen]
        cases hps : parts with
        | nil => exact absurd hps hparts
        | cons p ps =>
          cases ps with
          | nil => rfl
          | cons p2 ps2 =>
            rw [hps] at hlen
            exact absurd (by simp) hlen
    have htokNe : ∀ p ∈ parts.getLastD [] :: parts.dropLast, p ≠ [] := by
      intro p hp
      rcases List.mem_cons.mp hp with h1 | h1
      · subst h1
        exact (keyParts_mem (getLastD_mem [] hparts)).1
      · exact (keyParts_mem ((List.dropLast_sublist parts).subset h1)).1
    have htokWs : ∀ p ∈ parts.getLastD [] :: parts.dropLast, ∀ c ∈ p,
        jsIsWhitespace c = false := by
      intro p hp
      rcases List.mem_cons.mp hp with h1 | h1
      · subst h1
        exact (keyParts_mem (getLastD_mem [] hparts)).2
      · exact (keyParts_mem ((List.dropLast_sublist parts).subset h1)).2
    have htrim : jsTrimList (joinWith [' '] (parts.getLastD [] :: parts.dropLast))
        = joinWith [' '] (parts.getLastD [] :: parts.dropLast) := by
      apply jsTrimList_eq_self
      · intro c hc
        rw [joinWith_head parts.dropLast (htokNe _ (List.mem_cons_self _ _))] at hc
        exact htokWs _ (List.mem_cons_self _ _) c (List.mem_of_mem_head? hc)
      · intro c hc
        rw [joinWith_getLast parts.dropLast (parts.getLastD []) htokNe] at hc
        have hTmem : parts.dropLast.getLastD (parts.getLastD [])
            ∈ parts.getLastD [] :: parts.dropLast := by
          by_cases hdl : parts.dropLast = []
          · rw [hdl]
            simp
          · exact List.mem_cons_of_mem _ (getLastD_mem _ hdl)
        obtain ⟨hne, hcl⟩ := List.mem_getLast?_eq_getLast hc
        rw [hcl]
        exact htokWs _ hTmem _ (List.getLast_mem hne)
    rw [hlast, htrim]

/-- C2: `buildSearchKey` computes exactly the five representations the
specification describes — normalized full name, last-first form, last
token, first token and compact form, joined by `" | "` — with the worked
single-token and two-token examples. -/
theorem buildSearchKey_spec :
    (∀ v : JSValue, buildSearchKey v = specSearchKey v) ∧
      buildSearchKey (.jstr "RG Sharma")
        = "rg sharma | sharma rg | sharma | rg | rgsharma" ∧
      buildSearchKey (.jstr "Kohli") = "kohli | kohli | kohli | kohli | kohli" := by
  refine ⟨buildSearchKey_eq_spec, by decide, by decide⟩

theorem strIncludes_empty (s : String) : strIncludes s "" = true := by
  show hasSub s.toList "".toList = true
  cases s.toList with
  | nil => rfl
  | cons c t => simp [hasSub, listHeadMatch]

theorem search_eq (options : List String) (q : String) :
    search options q =
      if normalizeText (.jstr q) = "" then options.take 150
      else (options.filter fun c =>
        strIncludes (buildSearchKey (.jstr c)) (normalizeText (.jstr q))).take 150 := by
  unfold search
  have hfst : (Prod.fst ∘ fun name : String => (name, buildSearchKey (JSValue.jstr name)))
      = id := rfl
  by_cases hq : normalizeText (.jstr q) = ""
  · rw [if_pos hq, if_pos hq, ← List.map_take, List.map_map, hfst, List.map_id]
  · rw [if_neg hq, if_neg hq, List.filter_map, ← List.map_take, List.map_map, hfst,
      List.map_id]
    rfl

/-- C4: `search` never returns more than 150 results; an empty normalized
query returns the first 150 candidates in order, unfiltered; a non-empty
normalized query returns the matching candidates in original order
truncated to 150. -/
theorem search_cap_and_order (options : List String) (q : String) :
    (search options q).length ≤ 150 ∧
      (normalizeText (.jstr q) = "" → search options q = options.take 150) ∧
      (normalizeText (.jstr q) ≠ "" → search options q =
        (options.filter fun c =>
          strIncludes (buildSearchKey (.jstr c)) (normalizeText (.jstr q))).take 150) := by
  refine ⟨?_, fun h => by rw [search_eq, if_pos h], fun h => by rw [search_eq, if_neg h]⟩
  rw [search_eq]
  by_cases hq : normalizeText (.jstr q) = ""
  · rw [if_pos hq, List.length_take]
    exact min_le_left _ _
  · rw [if_neg hq, List.length_take]
    exact min_le_left _ _

/-- C4, witness: on a concrete singleton list with the empty query the
theorem yields the unfiltered 150-truncation. -/
theorem search_cap_and_order_witness :
    search ["Kohli"] "" = List.take 150 ["Kohli"] :=
  (search_cap_and_order ["Kohli"] "").2.1 (by decide)

/-- C3 (amended): a candidate whose derived key contains the normalized
query does appear in the result, provided at most 150 candidates match;
with more than 150 matches only the first 150 survive the cap. -/
theorem search_match_mem (options : List String) (q c : String)
    (hc : c ∈ options)
    (hmatch : strIncludes (buildSearchKey (.jstr c)) (normalizeText (.jstr q)) = true)
    (hsmall : (options.filter fun o =>
        strIncludes (buildSearchKey (.jstr o)) (normalizeText (.jstr q))).length ≤ 150) :
    c ∈ search options q := by
  rw [search_eq]
  by_cases hq : normalizeText (.jstr q) = ""
  · rw [if_pos hq]
    have hall : (options.filter fun o =>
        strIncludes (buildSearchKey (.jstr o)) (normalizeText (.jstr q))) = options :=
      List.filter_eq_self.mpr fun a _ => by rw [hq]; exact strIncludes_empty _
    rw [hall] at hsmall
    rw [List.take_of_length_le hsmall]
    exact hc
  · rw [if_neg hq, List.take_of_length_le hsmall]
    exact List.mem_filter.mpr ⟨hc, hmatch⟩

/-- C3, witness: searching `"sharma"` among `["RG Sharma"]` finds the
candidate through the amended theorem. -/
theorem search_match_mem_witness : "RG Sharma" ∈ search ["RG Sharma"] "sharma" :=
  search_match_mem ["RG Sharma"] "sharma" "RG Sharma" (by decide) (by decide) (by decide)

/-- C3, counterexample to the unqualified claim: with 151 matching
candidates, the 151st (`"ab"`) matches the query `"a"` by key but is cut
off by the 150-result cap, so it does not appear. -/
theorem search_cap_counterexample :
    strIncludes (buildSearchKey (.jstr "ab")) (normalizeText (.jstr "a")) = true ∧
      "ab" ∉ search (List.replicate 150 "aa" ++ ["ab"]) "a" := by
  refine ⟨by decide, by decide⟩

/-- C10: substring matching runs over the whole delimiter-joined key, so
the query `"sharma | sharma"` — a substring of none of the five individual
representations of `"RG Sharma"` — still matches, spanning a delimiter
boundary of the key. -/
theorem search_delimiter_spanning :
    search ["RG Sharma"] "sharma | sharma" = ["RG Sharma"] ∧
      buildSearchKey (.jstr "RG Sharma")
        = "rg sharma | sharma rg | sharma | rg | rgsharma" ∧
      (["rg sharma", "sharma rg", "sharma", "rg", "rgsharma"].all
        fun r => !(strIncludes r "sharma | sharma")) = true := by
  refine ⟨by decide, by decide, by decide⟩

theorem listHeadMatch_mono :
    ∀ {a b t : List Char}, listHeadMatch (a ++ b) t = true → listHeadMatch a t = true := by
  intro a
  induction a with
  | nil => intro b t _; rfl
  | cons x a' ih =>
    intro b t h
    cases t with
    | nil => simp [listHeadMatch] at h
    | cons y t' =>
      simp only [List.cons_append, listHeadMatch, Bool.and_eq_true] at h ⊢
      exact ⟨h.1, ih h.2⟩

theorem hasSub_of_append :
    ∀ {hay a b : List Char}, hasSub hay (a ++ b) = true → hasSub hay a = true := by
  intro hay
  induction hay with
  | nil =>
    intro a b h
    simp only [hasSub, List.isEmpty_eq_true, List.append_eq_nil] at h
    simp [hasSub, h.1]
  | cons c t ih =>
    intro a b h
    simp only [hasSub, Bool.or_eq_true] at h ⊢
    rcases h with h | h
    · exact Or.inl (listHeadMatch_mono h)
    · exact Or.inr (ih h)

theorem jsNumToString_int {q : ℚ} (h : q.den = 1) : jsNumToString q = toString q.num := by
  unfold jsNumToString jsNumToStringAbs
  by_cases hq : q < 0
  · rw [if_pos hq, if_pos (by rw [Rat.neg_den]; exact h)]
    cases hqn : q.num with
    | ofNat n =>
      exfalso
      have : (0 : ℤ) ≤ q.num := by rw [hqn]; exact Int.ofNat_nonneg n
      exact absurd (Rat.num_nonneg.mp this) (not_le.mpr hq)
    | negSucc m =>
      have hneg : (-q).num = Int.ofNat (m + 1) := by
        rw [Rat.neg_num, hqn]
        rfl
      rw [hneg]
      rfl
  · rw [if_neg hq, if_pos h]

theorem formatCell_num (q : ℚ) (key : String) :
    formatCell (.jnum q) key =
      (if strIncludes (String.mk (jsLower key.toList)) "econ" then jsToFixed 2 q
       else if String.mk (jsLower key.toList) = "sr" ∨
          strIncludes (String.mk (jsLower key.toList)) "sr_" ∨
          strIncludes (String.mk (jsLower key.toList)) "_sr" ∨
          strIncludes (String.mk (jsLower key.toList)) "strike" then jsToFixed 1 q
       else if strIncludes (String.mk (jsLower key.toList)) "dismiss" then jsToFixed 1 q
       else if strIncludes (String.mk (jsLower key.toList)) "wicket_pct" ∨
          strIncludes (String.mk (jsLower key.toList)) "wicket_pct_per_start" then
          jsToFixed 1 q
       else if strIncludes (String.mk (jsLower key.toList)) "share" then jsToFixed 1 q
       else ruleSix q) := rfl

theorem formatCell_no_rule (q : ℚ) (k : String)
    (h1 : strIncludes (String.mk (jsLower k.toList)) "econ" = false)
    (h2 : ¬(String.mk (jsLower k.toList) = "sr" ∨
        strIncludes (String.mk (jsLower k.toList)) "sr_" = true ∨
        strIncludes (String.mk (jsLower k.toList)) "_sr" = true ∨
        strIncludes (String.mk (jsLower k.toList)) "strike" = true))
    (h3 : strIncludes (String.mk (jsLower k.toList)) "dismiss" = false)
    (h4 : strIncludes (String.mk (jsLower k.toList)) "wicket_pct" = false)
    (h5 : strIncludes (String.mk (jsLower k.toList)) "share" = false) :
    formatCell (.jnum q) k = ruleSix q := by
  have h4b : strIncludes (String.mk (jsLower k.toList)) "wicket_pct_per_start" = false := by
    by_contra hcon
    have htrue : strIncludes (String.mk (jsLower k.toList)) "wicket_pct_per_start" = true := by
      simpa using hcon
    have hsplit : ("wicket_pct_per_start".toList)
        = "wicket_pct".toList ++ "_per_start".toList := by decide
    have hsub : hasSub (String.mk (jsLower k.toList)).toList ("wicket_pct".toList) = true := by
      refine hasSub_of_append (b := "_per_start".toList) ?_
      rw [← hsplit]
      exact htrue
    have h4' : hasSub (String.mk (jsLower k.toList)).toList ("wicket_pct".toList) = false := h4
    rw [hsub] at h4'
    exact absurd h4' (by simp)
  rw [formatCell_num]
  rw [if_neg (show ¬_ by rw [h1]; simp), if_neg h2, if_neg (show ¬_ by rw [h3]; simp),
    if_neg (show ¬_ by rw [h4, h4b]; simp), if_neg (show ¬_ by rw [h5]; simp)]

/-- C1: `formatCell` applies the first matching key-name rule over the
lower-cased key, in the fixed order econ (2 decimals), strike-rate
(1 decimal), dismiss (1 decimal), wicket_pct (1 decimal), share
(1 decimal); in particular a key containing both econ and share, such as
`"econ_share"`, resolves via the econ rule to 2 decimals. -/
theorem formatCell_precedence (q : ℚ) (k : String) :
    (strIncludes (String.mk (jsLower k.toList)) "econ" = true →
      formatCell (.jnum q) k = jsToFixed 2 q) ∧
    (strIncludes (String.mk (jsLower k.toList)) "econ" = false →
      (String.mk (jsLower k.toList) = "sr" ∨
        strIncludes (String.mk (jsLower k.toList)) "sr_" = true ∨
        strIncludes (String.mk (jsLower k.toList)) "_sr" = true ∨
        strIncludes (String.mk (jsLower k.toList)) "strike" = true) →
      formatCell (.jnum q) k = jsToFixed 1 q) ∧
    (strIncludes (String.mk (jsLower k.toList)) "econ" = false →
      ¬(String.mk (jsLower k.toList) = "sr" ∨
        strIncludes (String.mk (jsLower k.toList)) "sr_" = true ∨
        strIncludes (String.mk (jsLower k.toList)) "_sr" = true ∨
        strIncludes (String.mk (jsLower k.toList)) "strike" = true) →
      strIncludes (String.mk (jsLower k.toList)) "dismiss" = true →
      formatCell (.jnum q) k = jsToFixed 1 q) ∧
    (strIncludes (String.mk (jsLower k.toList)) "econ" = false →
      ¬(String.mk (jsLower k.toList) = "sr" ∨
        strIncludes (String.mk (jsLower k.toList)) "sr_" = true ∨
        strIncludes (String.mk (jsLower k.toList)) "_sr" = true ∨
        strIncludes (String.mk (jsLower k.toList)) "strike" = true) →
      strIncludes (String.mk (jsLower k.toList)) "dismiss" = false →
      strIncludes (String.mk (jsLower k.toList)) "wicket_pct" = true →
      formatCell (.jnum q) k = jsToFixed 1 q) ∧
    (strIncludes (String.mk (jsLower k.toList)) "econ" = false →
      ¬(String.mk (jsLower k.toList) = "sr" ∨
        strIncludes (String.mk (jsLower k.toList)) "sr_" = true ∨
        strIncludes (String.mk (jsLower k.toList)) "_sr" = true ∨
        strIncludes (String.mk (jsLower k.toList)) "strike" = true) →
      strIncludes (String.mk (jsLower k.toList)) "dismiss" = false →
      strIncludes (String.mk (jsLower k.toList)) "wicket_pct" = false →
      strIncludes (String.mk (jsLower k.toList)) "share" = true →
      formatCell (.jnum q) k = jsToFixed 1 q) ∧
    formatCell (.jnum q) "econ_share" = jsToFixed 2 q := by
  refine ⟨fun e1 => ?_, fun e1 s2 => ?_, fun e1 s2 d3 => ?_, fun e1 s2 d3 w4 => ?_,
    fun e1 s2 d3 w4 p5 => ?_, ?_⟩
  · rw [formatCell_num, if_pos e1]
  · rw [formatCell_num, if_neg (show ¬_ by rw [e1]; simp), if_pos s2]
  · rw [formatCell_num, if_neg (show ¬_ by rw [e1]; simp), if_neg s2, if_pos d3]
  · rw [formatCell_num, if_neg (show ¬_ by rw [e1]; simp), if_neg s2,
      if_neg (show ¬_ by rw [d3]; simp), if_pos (Or.inl w4)]
  · have h4b : strIncludes (String.mk (jsLower k.toList)) "wicket_pct_per_start" = false := by
      by_contra hcon
      have htrue : strIncludes (String.mk (jsLower k.toList)) "wicket_pct_per_start"
          = true := by simpa using hcon
      have hsplit : ("wicket_pct_per_start".toList)
          = "wicket_pct".toList ++ "_per_start".toList := by decide
      have hsub : hasSub (String.mk (jsLower k.toList)).toList ("wicket_pct".toList)
          = true := by
        refine hasSub_of_append (b := "_per_start".toList) ?_
        rw [← hsplit]
        exact htrue
      have h4' : hasSub (String.mk (jsLower k.toList)).toList ("wicket_pct".toList)
          = false := w4
      rw [hsub] at h4'
      exact absurd h4' (by simp)
    rw [formatCell_num, if_neg (show ¬_ by rw [e1]; simp), if_neg s2,
      if_neg (show ¬_ by rw [d3]; simp), if_neg (show ¬_ by rw [w4, h4b]; simp),
      if_pos p5]
  · rw [formatCell_num, if_pos (by decide)]

/-- C1, witness: the econ rule fires at the concrete key `"econ"`. -/
theorem formatCell_precedence_witness :
    formatCell (.jnum (15 / 2)) "econ" = jsToFixed 2 (15 / 2) :=
  (formatCell_precedence (15 / 2) "econ").1 (by decide)

/-- C6: absent values render as `""` under `formatCell`, as the em dash
`"—"` under `fmt` and `fmtPct` (no percent sign); present values render
via `formatCell`, with `fmtPct` appending a literal `"%"`. -/
theorem format_absent_placeholders (v : JSValue) (k : String) :
    formatCell .jnull k = "" ∧ formatCell .jundef k = "" ∧
      fmt .jnull k = "—" ∧ fmt .jundef k = "—" ∧
      fmtPct .jnull k = "—" ∧ fmtPct .jundef k = "—" ∧
      (v ≠ .jnull → v ≠ .jundef →
        fmt v k = formatCell v k ∧ fmtPct v k = formatCell v k ++ "%") := by
  refine ⟨rfl, rfl, rfl, rfl, rfl, rfl, fun h1 h2 => ?_⟩
  cases v with
  | jnull => exact absurd rfl h1
  | jundef => exact absurd rfl h2
  | jstr s => exact ⟨rfl, rfl⟩
  | jnum q => exact ⟨rfl, rfl⟩

/-- C6, witness: at the present numeric value `133.333` and key `"sr"` the
wrappers agree with `formatCell`. -/
theorem format_absent_placeholders_witness :
    fmt (.jnum (133333 / 1000)) "sr" = formatCell (.jnum (133333 / 1000)) "sr" :=
  ((format_absent_placeholders (.jnum (133333 / 1000)) "sr").2.2.2.2.2.2
    (by decide) (by decide)).1

/-- C7: when no naming rule matches the key, `formatCell` prints an
integer plainly (the decimal string of its numerator) and otherwise prints
a value on the 4-decimal grid at distance at most `1/20000` from the
input; worked examples `formatCell(10, "runs") = "10"` and
`formatCell(3.14159, "misc") = "3.1416"`. -/
theorem formatCell_default_rule :
    (∀ (q : ℚ) (k : String),
      strIncludes (String.mk (jsLower k.toList)) "econ" = false →
      ¬(String.mk (jsLower k.toList) = "sr" ∨
        strIncludes (String.mk (jsLower k.toList)) "sr_" = true ∨
        strIncludes (String.mk (jsLower k.toList)) "_sr" = true ∨
        strIncludes (String.mk (jsLower k.toList)) "strike" = true) →
      strIncludes (String.mk (jsLower k.toList)) "dismiss" = false →
      strIncludes (String.mk (jsLower k.toList)) "wicket_pct" = false →
      strIncludes (String.mk (jsLower k.toList)) "share" = false →
      (q.den = 1 → formatCell (.jnum q) k = toString q.num) ∧
      (q.den ≠ 1 → ∃ g : ℚ, (g * 10000).den = 1 ∧ |q - g| ≤ 1 / 20000 ∧
        formatCell (.jnum q) k = jsNumToString g)) ∧
    formatCell (.jnum 10) "runs" = "10" ∧
    formatCell (.jnum (314159 / 100000)) "misc" = "3.1416" := by
  refine ⟨fun q k h1 h2 h3 h4 h5 => ?_, by with_unfolding_all decide,
    by with_unfolding_all decide⟩
  have hfc := formatCell_no_rule q k h1 h2 h3 h4 h5
  constructor
  · intro hden
    rw [hfc, ruleSix, if_pos hden, jsNumToString_int hden]
  · intro hden
    refine ⟨(round (q * 10000) : ℚ) / 10000, ?_, ?_, ?_⟩
    · rw [div_mul_cancel₀ _ (by norm_num : (10000 : ℚ) ≠ 0)]
      exact Rat.den_intCast _
    · have hr := abs_sub_round ((q : ℚ) * 10000)
      have hsplit : q - (round (q * 10000) : ℚ) / 10000
          = (q * 10000 - round (q * 10000)) / 10000 := by field_simp
      rw [hsplit, abs_div, abs_of_pos (by norm_num : (0 : ℚ) < 10000),
        div_le_iff₀ (by norm_num : (0 : ℚ) < 10000)]
      linarith
    · rw [hfc, ruleSix, if_neg hden]

/-- C7, witness: at the non-integer `3.14159` with the unmatched key
`"misc"` the theorem produces the grid value printed as `"3.1416"`. -/
theorem formatCell_default_rule_witness :
    (314159 / 100000 : ℚ).den ≠ 1 ∧ ∃ g : ℚ, (g * 10000).den = 1 ∧
      |(314159 / 100000 : ℚ) - g| ≤ 1 / 20000 ∧
      formatCell (.jnum (314159 / 100000)) "misc" = jsNumToString g :=
  ⟨by with_unfolding_all decide,
    (formatCell_default_rule.1 (314159 / 100000) "misc" (by decide) (by decide)
      (by decide) (by decide) (by decide)).2 (by with_unfolding_all decide)⟩

/-- C9: the helpers are total functions of their modelled inputs —
wrongly-typed (string) formatter inputs render via generic string
conversion in `formatCell`, `fmt` and `fmtPct`, absent search-key inputs
coerce to the empty string in `normalizeText` and `buildSearchKey`, and a
key matching no naming rule falls through to the final numeric rule
instead of failing. -/
theorem helpers_total_and_safe (s k : String) (q : ℚ) :
    formatCell (.jstr s) k = s ∧ fmt (.jstr s) k = s ∧ fmtPct (.jstr s) k = s ++ "%" ∧
      normalizeText .jnull = "" ∧ normalizeText .jundef = "" ∧
      buildSearchKey .jnull = "" ∧ buildSearchKey .jundef = "" ∧
      (strIncludes (String.mk (jsLower k.toList)) "econ" = false →
        ¬(String.mk (jsLower k.toList) = "sr" ∨
          strIncludes (String.mk (jsLower k.toList)) "sr_" = true ∨
          strIncludes (String.mk (jsLower k.toList)) "_sr" = true ∨
          strIncludes (String.mk (jsLower k.toList)) "strike" = true) →
        strIncludes (String.mk (jsLower k.toList)) "dismiss" = false →
        strIncludes (String.mk (jsLower k.toList)) "wicket_pct" = false →
        strIncludes (String.mk (jsLower k.toList)) "share" = false →
        formatCell (.jnum q) k = ruleSix q) :=
  ⟨rfl, rfl, rfl, rfl, rfl, by decide, by decide, formatCell_no_rule q k⟩

/-- C9, witness: the unmatched key `"zzz"` falls through to the final
numeric rule at the value `1/2`. -/
theorem helpers_total_and_safe_witness :
    formatCell (.jnum (1 / 2)) "zzz" = ruleSix (1 / 2) :=
  (helpers_total_and_safe "x" "zzz" (1 / 2)).2.2.2.2.2.2.2
    (by decide) (by decide) (by decide) (by decide) (by decide)

end CricPulse
